import Mathlib

/-!
Verification of the RSA core of the Cryptography_Chat repository
(`rsa.py` and the key-validation / inbox layer of `criptochat.py`).

Python integers are embedded as `Int` (arbitrary precision), fallible
code as `Except PyError`, and every random draw of the source becomes an
explicit `Nat` parameter mapped into the drawn range exactly as
`random.randint` / `random.randrange` would produce it.  The digit-count
expressions `int(log10(m)) + 1` of the source are embedded exactly over
the integers (`math.log10` raises its domain error for `m <= 0`, which
the embedding reproduces).

The `modular` module imported by `rsa.py` is not part of the repository
snapshot; its operations are modelled from the specification (section
4.1) and are marked `Modelled from the spec:` below.
-/

/-- Error kinds raised by the embedded Python code: `ValueError` (both the
explicitly raised validation errors and the domain error of `math.log10`),
`AssertionError` from `assert` statements, and `OverflowError` (the kind
that `criptochat.valid` catches). -/
inductive PyError where
  | valueError : PyError
  | assertionError : PyError
  | overflowError : PyError
deriving DecidableEq

instance {ε α : Type} [DecidableEq ε] [DecidableEq α] : DecidableEq (Except ε α) := fun a b =>
  match a, b with
  | .ok x, .ok y =>
      if h : x = y then isTrue (by rw [h]) else isFalse (fun hc => by cases hc; exact h rfl)
  | .error x, .error y =>
      if h : x = y then isTrue (by rw [h]) else isFalse (fun hc => by cases hc; exact h rfl)
  | .ok _, .error _ => isFalse (fun hc => by cases hc)
  | .error _, .ok _ => isFalse (fun hc => by cases hc)

/-- Modelled from the spec: `modular.es_primo` (section 4.1 `is_prime`), a
deterministic primality test by trial division; it classifies exactly the
prime numbers. -/
def es_primo (n : Int) : Bool :=
  decide (2 ≤ n) && (List.range (n.toNat - 2)).all (fun d => n.toNat % (d + 2) != 0)

theorem es_primo_iff (n : Int) : es_primo n = true ↔ 2 ≤ n ∧ Nat.Prime n.toNat := by
  unfold es_primo
  simp only [Bool.and_eq_true, decide_eq_true_eq, List.all_eq_true, List.mem_range, bne_iff_ne,
    ne_eq]
  constructor
  · rintro ⟨h2, hdvd⟩
    refine ⟨h2, ?_⟩
    have h2n : 2 ≤ n.toNat := by omega
    rw [Nat.prime_def_lt]
    refine ⟨h2n, fun m hm hdm => ?_⟩
    by_contra hm1
    have hm2 : 2 ≤ m := by
      rcases Nat.eq_zero_or_pos m with h0 | h1
      · subst h0; simp at hdm; omega
      · omega
    have := hdvd (m - 2) (by omega)
    rw [show m - 2 + 2 = m by omega] at this
    exact this (Nat.dvd_iff_mod_eq_zero.mp hdm)
  · rintro ⟨h2, hp⟩
    refine ⟨h2, fun d hd => ?_⟩
    intro hmod
    have hdvd : (d + 2) ∣ n.toNat := Nat.dvd_iff_mod_eq_zero.mpr hmod
    have := (Nat.prime_def_lt.mp hp).2 (d + 2) (by omega) hdvd
    omega

/-- Decimal digit-count helper: with fuel at least `n` it computes the
number of decimal digits of `n` (for `n ≥ 1`), i.e. `Nat.log 10 n + 1`. -/
def digitos_aux : Nat → Nat → Nat
  | 0, _ => 1
  | fuel + 1, n => if n < 10 then 1 else digitos_aux fuel (n / 10) + 1

theorem digitos_aux_eq_log (fuel n : Nat) (h1 : 1 ≤ n) (hf : n ≤ fuel) :
    digitos_aux fuel n = Nat.log 10 n + 1 := by
  induction fuel generalizing n with
  | zero => omega
  | succ f ih =>
    unfold digitos_aux
    by_cases hn : n < 10
    · simp only [hn, if_true]
      have : Nat.log 10 n = 0 := Nat.log_eq_zero_iff.mpr (Or.inl hn)
      omega
    · simp only [hn, if_false]
      have h10 : 10 ≤ n := by omega
      have hd1 : 1 ≤ n / 10 := Nat.one_le_div_iff (by omega) |>.mpr h10
      have hdf : n / 10 ≤ f := by
        have : n / 10 < n := Nat.div_lt_self (by omega) (by omega)
        omega
      rw [ih (n / 10) hd1 hdf]
      have := Nat.log_div_base 10 n
      have hlog1 : 0 < Nat.log 10 n := Nat.log_pos (by omega) h10
      omega

/-- Decimal digit count of an integer as the source computes it
(`int(log10(v)) + 1`); meaningful for `v ≥ 1`. -/
def cuenta_digitos (v : Int) : Int :=
  (digitos_aux v.toNat v.toNat : Nat)

theorem cuenta_digitos_eq_log (v : Int) (h : 1 ≤ v) :
    cuenta_digitos v = (Nat.log 10 v.toNat : Int) + 1 := by
  unfold cuenta_digitos
  have h1 : 1 ≤ v.toNat := by omega
  rw [digitos_aux_eq_log v.toNat v.toNat h1 le_rfl]
  push_cast
  ring

/-- Modular exponentiation by repeated squaring, with enough fuel to
halve the exponent down to zero. -/
def modpow_fuel (n : Nat) : Nat → Nat → Nat → Nat
  | _, _, 0 => 1 % n
  | b, e, fuel + 1 =>
    if e = 0 then 1 % n
    else
      if e % 2 = 1 then modpow_fuel n (b * b % n) (e / 2) fuel * b % n
      else modpow_fuel n (b * b % n) (e / 2) fuel

theorem modpow_fuel_eq (n : Nat) (_hn : 0 < n) (fuel : Nat) :
    ∀ b e, e ≤ fuel → modpow_fuel n b e fuel = b ^ e % n := by
  induction fuel with
  | zero =>
    intro b e he
    have : e = 0 := by omega
    subst this
    simp [modpow_fuel]
  | succ f ih =>
    intro b e he
    unfold modpow_fuel
    by_cases he0 : e = 0
    · subst he0; simp
    · simp only [he0, if_false]
      have hrec : e / 2 ≤ f := by omega
      have hbb : modpow_fuel n (b * b % n) (e / 2) f = (b ^ 2) ^ (e / 2) % n := by
        rw [ih _ _ hrec, Nat.pow_mod, Nat.mod_mod_of_dvd _ dvd_rfl, ← Nat.pow_mod, sq]
      by_cases hpar : e % 2 = 1
      · rw [if_pos hpar, hbb, Nat.mod_mul_mod, ← pow_mul, ← pow_succ]
        congr 2
        omega
      · rw [if_neg hpar, hbb, ← pow_mul]
        congr 2
        omega

/-- Computes `b ^ e mod n` by binary exponentiation. -/
def modpow (n b e : Nat) : Nat := modpow_fuel n b e e

theorem modpow_eq (n b e : Nat) (hn : 0 < n) : modpow n b e = b ^ e % n :=
  modpow_fuel_eq n hn e b e le_rfl

/-- Modelled from the spec: `modular.potencia_mod_p` (section 4.1
`mod_pow`), binary modular exponentiation over arbitrary-precision
integers; raises an arithmetic error when the modulus is not positive
(and the system never calls it with a negative exponent). -/
def potencia_mod_p (b e n : Int) : Except PyError Int :=
  if n ≤ 0 then .error .valueError
  else if e < 0 then .error .valueError
  else .ok ((modpow n.toNat (b % n).toNat e.toNat : Nat) : Int)

theorem potencia_mod_p_ok (b e n : Int) (hb : 0 ≤ b) (he : 0 ≤ e) (hn : 0 < n) :
    potencia_mod_p b e n = .ok ((b.toNat ^ e.toNat % n.toNat : Nat) : Int) := by
  unfold potencia_mod_p
  rw [if_neg (by omega), if_neg (by omega)]
  have hb' : (b % n).toNat = b.toNat % n.toNat := by
    have hge : 0 ≤ b % n := Int.emod_nonneg b (by omega)
    have hc : ((b.toNat % n.toNat : Nat) : Int) = b % n := by
      push_cast
      rw [Int.toNat_of_nonneg hb, Int.toNat_of_nonneg hn.le]
    omega
  rw [modpow_eq _ _ _ (by omega), hb', ← Nat.pow_mod]

/-- Modelled from the spec: `modular.coprimos` (section 4.1 `are_coprime`):
`gcd(a, b) == 1`. -/
def coprimos (a b : Int) : Bool := Int.gcd a b == 1

/-- Modelled from the spec: `modular.inversa_mod_p` (section 4.1
`mod_inverse`): returns the unique `x` in `[0, m)` with `a*x ≡ 1 (mod m)`,
failing with a domain error when `gcd(a, m) ≠ 1` (so no inverse exists)
or when the modulus is not positive. -/
def inversa_mod_p (a m : Int) : Except PyError Int :=
  if m ≤ 0 then .error .valueError
  else if Int.gcd a m ≠ 1 then .error .valueError
  else
    match (List.range m.toNat).find? (fun (x : Nat) => a * (x : Int) % m == 1 % m) with
    | some x => .ok (x : Int)
    | none => .error .valueError

theorem inversa_mod_p_ok (a m d : Int) (h : inversa_mod_p a m = .ok d) :
    0 < m ∧ Int.gcd a m = 1 ∧ 0 ≤ d ∧ d < m ∧ a * d % m = 1 % m := by
  unfold inversa_mod_p at h
  by_cases h1 : m ≤ 0
  · rw [if_pos h1] at h; simp at h
  rw [if_neg h1] at h
  by_cases h2 : Int.gcd a m ≠ 1
  · rw [if_pos h2] at h; simp at h
  rw [if_neg h2] at h
  push_neg at h2
  rcases hfind : (List.range m.toNat).find? (fun (x : Nat) => a * (x : Int) % m == 1 % m) with _ | x
  · rw [hfind] at h; simp at h
  · rw [hfind] at h
    simp only [Except.ok.injEq] at h
    have hx := List.find?_some hfind
    have hmem := List.mem_of_find?_eq_some hfind
    simp only [List.mem_range] at hmem
    simp only [beq_iff_eq] at hx
    subst h
    refine ⟨by omega, h2, Int.natCast_nonneg x, ?_, hx⟩
    omega

/-- Smallest divisor of `n` that is at least `d`, searched upward with
fuel; `n` itself if the fuel runs out. -/
def menor_factor_desde (n : Nat) : Nat → Nat → Nat
  | _, 0 => n
  | d, fuel + 1 => if n % d = 0 then d else menor_factor_desde n (d + 1) fuel

/-- Smallest divisor (≥ 2) of `n`, by trial division. -/
def menor_factor (n : Nat) : Nat := if n ≤ 1 then n else menor_factor_desde n 2 n

/-- Modelled from the spec: `modular.euler` (section 4.1 `euler_totient`):
recovers the totient of a public modulus by factoring it into its two
prime factors `p, q` and returning `(p-1)*(q-1)`. -/
def euler (n : Int) : Int :=
  ((menor_factor n.toNat - 1) * (n.toNat / menor_factor n.toNat - 1) : Nat)

theorem menor_factor_desde_spec (n : Nat) (fuel : Nat) :
    ∀ d, 2 ≤ d → (∃ k, d ≤ k ∧ k < d + fuel ∧ n % k = 0) →
      n % menor_factor_desde n d fuel = 0 ∧ d ≤ menor_factor_desde n d fuel ∧
      ∀ j, d ≤ j → j < menor_factor_desde n d fuel → n % j ≠ 0 := by
  induction fuel with
  | zero =>
    rintro d _ ⟨k, hk1, hk2, _⟩
    omega
  | succ f ih =>
    rintro d hd ⟨k, hk1, hk2, hk3⟩
    unfold menor_factor_desde
    by_cases hdvd : n % d = 0
    · rw [if_pos hdvd]
      exact ⟨hdvd, le_rfl, fun j h1 h2 => by omega⟩
    · rw [if_neg hdvd]
      have hkne : k ≠ d := fun h => hdvd (h ▸ hk3)
      have := ih (d + 1) (by omega) ⟨k, by omega, by omega, hk3⟩
      refine ⟨this.1, by omega, fun j h1 h2 => ?_⟩
      rcases Nat.eq_or_lt_of_le h1 with h | h
      · subst h; exact hdvd
      · exact this.2.2 j (by omega) h2

theorem menor_factor_semiprime (P Q : Nat) (hP : P.Prime) (hQ : Q.Prime) :
    menor_factor (P * Q) = P ∨ menor_factor (P * Q) = Q := by
  have hP2 := hP.two_le
  have hQ2 := hQ.two_le
  have hn : ¬ P * Q ≤ 1 := by nlinarith
  unfold menor_factor
  rw [if_neg hn]
  have hexist : ∃ k, 2 ≤ k ∧ k < 2 + P * Q ∧ (P * Q) % k = 0 := by
    refine ⟨P, hP2, by nlinarith, ?_⟩
    exact Nat.dvd_iff_mod_eq_zero.mp (Dvd.intro Q rfl)
  obtain ⟨hr1, hr2, hr3⟩ := menor_factor_desde_spec (P * Q) (P * Q) 2 le_rfl hexist
  set r := menor_factor_desde (P * Q) 2 (P * Q) with hr
  have hrdvd : r ∣ P * Q := Nat.dvd_iff_mod_eq_zero.mpr hr1
  have hrprime : r.Prime := by
    obtain ⟨f, hf, hfdvd⟩ := Nat.exists_prime_and_dvd (show r ≠ 1 by omega)
    have hfr : f ≤ r := Nat.le_of_dvd (by omega) hfdvd
    rcases Nat.eq_or_lt_of_le hfr with h | h
    · exact h ▸ hf
    · exact absurd (Nat.dvd_iff_mod_eq_zero.mp (hfdvd.trans hrdvd))
        (hr3 f hf.two_le h)
  rcases (Nat.Prime.dvd_mul hrprime).mp hrdvd with h | h
  · exact Or.inl ((Nat.prime_dvd_prime_iff_eq hrprime hP).mp h)
  · exact Or.inr ((Nat.prime_dvd_prime_iff_eq hrprime hQ).mp h)

theorem euler_semiprime (P Q : Nat) (hP : P.Prime) (hQ : Q.Prime) :
    euler ((P * Q : Nat) : Int) = ((P - 1) * (Q - 1) : Nat) := by
  unfold euler
  rw [Int.toNat_natCast]
  rcases menor_factor_semiprime P Q hP hQ with h | h
  · rw [h, Nat.mul_div_cancel_left Q (by have := hP.two_le; omega)]
  · rw [h, Nat.mul_div_cancel P (by have := hQ.two_le; omega : 0 < Q), Nat.mul_comm]

/-- Upward linear prime scan with fuel (the loop body of
`rsa.siguiente_primo`). -/
def busca_primo_arriba : Int → Nat → Int
  | k, 0 => k
  | k, fuel + 1 => if es_primo k then k else busca_primo_arriba (k + 1) fuel

theorem busca_primo_arriba_spec (fuel : Nat) :
    ∀ k : Int, (∃ p : Int, es_primo p = true ∧ k ≤ p ∧ p < k + fuel) →
      es_primo (busca_primo_arriba k fuel) = true ∧ k ≤ busca_primo_arriba k fuel := by
  induction fuel with
  | zero =>
    rintro k ⟨p, _, h1, h2⟩
    simp only [Nat.cast_zero, add_zero] at h2
    omega
  | succ f ih =>
    rintro k ⟨p, hp, h1, h2⟩
    unfold busca_primo_arriba
    by_cases hk : es_primo k = true
    · rw [if_pos hk]
      exact ⟨hk, le_rfl⟩
    · rw [if_neg hk]
      have hpk : p ≠ k := fun h => hk (h ▸ hp)
      have := ih (k + 1) ⟨p, hp, by omega, by push_cast at h2; omega⟩
      exact ⟨this.1, by omega⟩

/-- Embeds `rsa.siguiente_primo`: scans upward from `n + 1` until a prime is
found.  The fuel `n.natAbs + 3` always suffices: by the Bertrand postulate
the window `[n+1, 2n+3]` contains a prime. -/
def siguiente_primo (n : Int) : Int := busca_primo_arriba (n + 1) (n.natAbs + 3)

theorem siguiente_primo_spec (n : Int) :
    es_primo (siguiente_primo n) = true ∧ n < siguiente_primo n := by
  unfold siguiente_primo
  have hwin : ∃ p : Int, es_primo p = true ∧ n + 1 ≤ p ∧ p < n + 1 + (n.natAbs + 3 : Nat) := by
    by_cases hn : n ≤ 1
    · exact ⟨2, by decide, by omega, by omega⟩
    · push_neg at hn
      obtain ⟨P, hP, h1, h2⟩ := Nat.bertrand n.toNat (by omega)
      refine ⟨(P : Int), ?_, by omega, by omega⟩
      rw [es_primo_iff]
      constructor
      · have := hP.two_le; omega
      · rwa [Int.toNat_natCast]
  have := busca_primo_arriba_spec (n.natAbs + 3) (n + 1) hwin
  exact ⟨this.1, by omega⟩

/-- Downward linear prime scan (the loop body of `rsa.anterior_primo`),
structurally recursive on the starting point; below 2 it is never
entered by `anterior_primo`. -/
def busca_primo_abajo : Nat → Nat
  | 0 => 0
  | 1 => 1
  | k + 2 => if es_primo ((k : Int) + 2) then k + 2 else busca_primo_abajo (k + 1)

theorem busca_primo_abajo_spec (k : Nat) (hk : 2 ≤ k) :
    es_primo ((busca_primo_abajo k : Nat) : Int) = true ∧ busca_primo_abajo k ≤ k := by
  induction k using Nat.strong_induction_on with
  | _ k ih =>
    match k, hk with
    | (j + 2), _ =>
      unfold busca_primo_abajo
      by_cases hp : es_primo ((j : Int) + 2) = true
      · rw [if_pos hp]
        refine ⟨?_, le_rfl⟩
        have : ((j : Int) + 2) = ((j + 2 : Nat) : Int) := by push_cast; ring
        rwa [this] at hp
      · rw [if_neg hp]
        have hj : 1 ≤ j := by
          by_contra h
          have hj0 : j = 0 := by omega
          subst hj0
          exact hp (by decide)
        have := ih (j + 1) (by omega) (by omega)
        exact ⟨this.1, by omega⟩

/-- Embeds `rsa.anterior_primo`: the previous prime strictly below `n`, or the
`NE` sentinel (modelled as `none`) when `n ≤ 2` so no previous prime
exists. -/
def anterior_primo (n : Int) : Option Int :=
  if n ≤ 2 then none else some ((busca_primo_abajo (n - 1).toNat : Nat) : Int)

theorem anterior_primo_spec (n p : Int) (h : anterior_primo n = some p) :
    es_primo p = true ∧ p < n := by
  unfold anterior_primo at h
  by_cases hn : n ≤ 2
  · rw [if_pos hn] at h; simp at h
  · rw [if_neg hn] at h
    simp only [Option.some.injEq] at h
    push_neg at hn
    have h2 : 2 ≤ (n - 1).toNat := by omega
    have := busca_primo_abajo_spec (n - 1).toNat h2
    subst h
    exact ⟨this.1, by omega⟩

theorem countP_lt_of_mem {α : Type} {l : List α} {P Q : α → Bool}
    (hPQ : ∀ x, Q x = true → P x = true) {p : α} (hp : p ∈ l)
    (hPp : P p = true) (hQp : Q p = false) : l.countP Q < l.countP P := by
  induction l with
  | nil => cases hp
  | cons a t ih =>
    rw [List.countP_cons, List.countP_cons]
    have hmono : t.countP Q ≤ t.countP P := List.countP_mono_left (fun x _ => hPQ x)
    rcases List.mem_cons.mp hp with h | h
    · subst h
      rw [hPp, hQp]
      simp
      omega
    · have := ih h
      by_cases hQa : Q a = true
      · rw [hQa, hPQ a hQa]
        simp
        omega
      · rw [Bool.not_eq_true] at hQa
        rw [hQa]
        simp only [Bool.false_eq_true, if_false]
        by_cases hPa : P a = true
        · rw [hPa]; simp; omega
        · rw [Bool.not_eq_true] at hPa
          rw [hPa]; simp only [Bool.false_eq_true, if_false]; omega

/-- The duplicate-skipping loop of the upward branch of
`generar_numeros_primos`: while the candidate is already in `out`,
replace it by the next prime above it. -/
def salta_arriba (out : List Int) : Int → Nat → Int
  | p, 0 => p
  | p, fuel + 1 => if p ∈ out then salta_arriba out (siguiente_primo p) fuel else p

theorem salta_arriba_spec (out : List Int) (fuel : Nat) :
    ∀ p : Int, es_primo p = true →
      out.countP (fun x => decide (p ≤ x)) < fuel →
      es_primo (salta_arriba out p fuel) = true ∧ p ≤ salta_arriba out p fuel ∧
        salta_arriba out p fuel ∉ out := by
  induction fuel with
  | zero => intro p _ hcount; omega
  | succ f ih =>
    intro p hp hcount
    unfold salta_arriba
    by_cases hmem : p ∈ out
    · rw [if_pos hmem]
      obtain ⟨hq, hlt⟩ := siguiente_primo_spec p
      have hdec : out.countP (fun x => decide (siguiente_primo p ≤ x)) <
          out.countP (fun x => decide (p ≤ x)) := by
        refine countP_lt_of_mem (fun x hx => ?_) hmem (by simp) (by simp; omega)
        simp only [decide_eq_true_eq] at hx ⊢
        omega
      have := ih (siguiente_primo p) hq (by omega)
      exact ⟨this.1, by omega, this.2.2⟩
    · rw [if_neg hmem]
      exact ⟨hp, le_rfl, hmem⟩

/-- The duplicate-skipping loop of the downward branch; `none` is the
`NE` sentinel, which the loop passes through unchanged (in the source,
`NE in output_primos` is false). -/
def salta_abajo (out : List Int) : Option Int → Nat → Option Int
  | none, _ => none
  | some p, 0 => some p
  | some p, fuel + 1 =>
    if p ∈ out then salta_abajo out (anterior_primo p) fuel else some p

theorem salta_abajo_none (out : List Int) (fuel : Nat) : salta_abajo out none fuel = none := by
  cases fuel <;> rfl

theorem salta_abajo_spec (out : List Int) (fuel : Nat) :
    ∀ p : Int, es_primo p = true →
      out.countP (fun x => decide (x ≤ p)) < fuel →
      ∀ r, salta_abajo out (some p) fuel = some r →
        es_primo r = true ∧ r ≤ p ∧ r ∉ out := by
  induction fuel with
  | zero => intro p _ hcount; omega
  | succ f ih =>
    intro p hp hcount r hr
    unfold salta_abajo at hr
    by_cases hmem : p ∈ out
    · rw [if_pos hmem] at hr
      rcases hant : anterior_primo p with _ | p'
      · rw [hant, salta_abajo_none] at hr
        cases hr
      · rw [hant] at hr
        obtain ⟨hq, hlt⟩ := anterior_primo_spec p p' hant
        have hdec : out.countP (fun x => decide (x ≤ p')) <
            out.countP (fun x => decide (x ≤ p)) := by
          refine countP_lt_of_mem (fun x hx => ?_) hmem (by simp) (by simp; omega)
          simp only [decide_eq_true_eq] at hx ⊢
          omega
        have := ih p' hq (by omega) r hr
        exact ⟨this.1, by omega, this.2.2⟩
    · rw [if_neg hmem] at hr
      simp only [Option.some.injEq] at hr
      subst hr
      exact ⟨hp, le_rfl, hmem⟩

/-- Embeds `random.randint(a, b)` (both bounds inclusive): the value realised by
the abstract draw `k`; every value of `[a, b]` is realised by some `k`
when `a ≤ b`. -/
def randint (a b : Int) (k : Nat) : Int := a + (k : Int) % (b - a + 1)

theorem randint_mem (a b : Int) (k : Nat) (h : a ≤ b) :
    a ≤ randint a b k ∧ randint a b k ≤ b := by
  unfold randint
  have hpos : 0 < b - a + 1 := by omega
  have h1 : 0 ≤ (k : Int) % (b - a + 1) := Int.emod_nonneg _ (by omega)
  have h2 : (k : Int) % (b - a + 1) < b - a + 1 := Int.emod_lt_of_pos _ hpos
  omega

/-- One iteration of the loop of `generar_numeros_primos` over the random
seeds: search upward from the seed for a prime not yet chosen; if that
search reaches `max_primo`, search downward from `max_primo` instead;
reject the result when it falls below `min_primo` or is the `NE`
sentinel. -/
def procesa_semilla (min_primo max_primo : Int) (out : List Int) (semilla : Int) :
    Except PyError Int :=
  let p := salta_arriba out (siguiente_primo semilla) (out.length + 1)
  if max_primo ≤ p then
    match salta_abajo out (anterior_primo max_primo) (out.length + 1) with
    | none => .error .valueError
    | some q => if q < min_primo then .error .valueError else .ok q
  else if p < min_primo then .error .valueError else .ok p

theorem procesa_semilla_ok (min_primo max_primo : Int) (out : List Int) (semilla p : Int)
    (h : procesa_semilla min_primo max_primo out semilla = .ok p) :
    es_primo p = true ∧ min_primo ≤ p ∧ p < max_primo ∧ p ∉ out := by
  unfold procesa_semilla at h
  obtain ⟨hsp, hslt⟩ := siguiente_primo_spec semilla
  have hcount1 : out.countP (fun x => decide (siguiente_primo semilla ≤ x)) < out.length + 1 :=
    lt_of_le_of_lt (List.countP_le_length _) (by omega)
  obtain ⟨hu1, hu2, hu3⟩ := salta_arriba_spec out (out.length + 1) (siguiente_primo semilla)
    hsp hcount1
  set u := salta_arriba out (siguiente_primo semilla) (out.length + 1) with hu
  by_cases hmax : max_primo ≤ u
  · rw [if_pos hmax] at h
    rcases hant : anterior_primo max_primo with _ | w
    · rw [hant, salta_abajo_none] at h
      cases h
    · rw [hant] at h
      obtain ⟨hw1, hw2⟩ := anterior_primo_spec max_primo w hant
      have hcount2 : out.countP (fun x => decide (x ≤ w)) < out.length + 1 :=
        lt_of_le_of_lt (List.countP_le_length _) (by omega)
      rcases hd : salta_abajo out (some w) (out.length + 1) with _ | q
      · rw [hd] at h; cases h
      · rw [hd] at h
        obtain ⟨hq1, hq2, hq3⟩ := salta_abajo_spec out (out.length + 1) w hw1 hcount2 q hd
        have h' : (if q < min_primo then (Except.error PyError.valueError : Except PyError Int)
            else .ok q) = .ok p := h
        by_cases hqmin : q < min_primo
        · rw [if_pos hqmin] at h'; cases h'
        · rw [if_neg hqmin] at h'
          simp only [Except.ok.injEq] at h'
          subst h'
          exact ⟨hq1, by omega, by omega, hq3⟩
  · rw [if_neg hmax] at h
    by_cases hmin : u < min_primo
    · rw [if_pos hmin] at h; cases h
    · rw [if_neg hmin] at h
      simp only [Except.ok.injEq] at h
      subst h
      exact ⟨hu1, by omega, by omega, hu3⟩

/-- The accumulation loop of `generar_numeros_primos`: process each seed
in turn, appending each accepted prime to `output_primos`. -/
def procesa_lista (min_primo max_primo : Int) : List Int → List Int → Except PyError (List Int)
  | [], out => .ok out
  | s :: rest, out =>
    match procesa_semilla min_primo max_primo out s with
    | .error e => .error e
    | .ok p => procesa_lista min_primo max_primo rest (out ++ [p])

theorem procesa_lista_ok (min_primo max_primo : Int) (seeds : List Int) :
    ∀ out l, out.Nodup →
      (∀ p ∈ out, es_primo p = true ∧ min_primo ≤ p ∧ p < max_primo) →
      procesa_lista min_primo max_primo seeds out = .ok l →
      l.Nodup ∧ (∀ p ∈ l, es_primo p = true ∧ min_primo ≤ p ∧ p < max_primo) ∧
        l.length = out.length + seeds.length := by
  induction seeds with
  | nil =>
    intro out l hnd hprops h
    unfold procesa_lista at h
    simp only [Except.ok.injEq] at h
    subst h
    exact ⟨hnd, hprops, by simp⟩
  | cons s rest ih =>
    intro out l hnd hprops h
    unfold procesa_lista at h
    rcases hsem : procesa_semilla min_primo max_primo out s with e | p
    · rw [hsem] at h; cases h
    · rw [hsem] at h
      obtain ⟨hp1, hp2, hp3, hp4⟩ := procesa_semilla_ok min_primo max_primo out s p hsem
      have hnd' : (out ++ [p]).Nodup := by
        rw [List.nodup_append]
        exact ⟨hnd, List.nodup_singleton p, by simpa using hp4⟩
      have hprops' : ∀ q ∈ out ++ [p], es_primo q = true ∧ min_primo ≤ q ∧ q < max_primo := by
        intro q hq
        rcases List.mem_append.mp hq with hq | hq
        · exact hprops q hq
        · rw [List.mem_singleton] at hq
          subst hq
          exact ⟨hp1, hp2, hp3⟩
      obtain ⟨h1, h2, h3⟩ := ih (out ++ [p]) l hnd' hprops' h
      refine ⟨h1, h2, ?_⟩
      have hlen : (out ++ [p]).length = out.length + 1 := by simp
      rw [h3, hlen]
      simp only [List.length_cons]
      omega

/-- Embeds `rsa.generar_numeros_primos(min_primo, max_primo, numero)`: validates
`numero ≥ 1` and `min_primo ≤ max_primo`, then draws `numero` random
seeds from `[min_primo - 1, max_primo]` (the abstract draws `draws`) and
turns each into a fresh prime of the interval.  The source returns a bare
integer when `numero = 1` and a tuple otherwise; the embedding returns
the list in both cases. -/
def generar_numeros_primos (min_primo max_primo : Int) (numero : Int) (draws : List Nat) :
    Except PyError (List Int) :=
  if numero < 1 then .error .valueError
  else if min_primo > max_primo then .error .valueError
  else procesa_lista min_primo max_primo (draws.map (randint (min_primo - 1) max_primo)) []

theorem generar_numeros_primos_ok (min_primo max_primo : Int) (numero : Int) (draws : List Nat)
    (l : List Int) (h : generar_numeros_primos min_primo max_primo numero draws = .ok l) :
    l.Nodup ∧ (∀ p ∈ l, es_primo p = true ∧ min_primo ≤ p ∧ p < max_primo) ∧
      l.length = draws.length := by
  unfold generar_numeros_primos at h
  by_cases h1 : numero < 1
  · rw [if_pos h1] at h; cases h
  rw [if_neg h1] at h
  by_cases h2 : min_primo > max_primo
  · rw [if_pos h2] at h; cases h
  rw [if_neg h2] at h
  have := procesa_lista_ok min_primo max_primo
    (draws.map (randint (min_primo - 1) max_primo)) [] l List.nodup_nil (by simp) h
  refine ⟨this.1, this.2.1, ?_⟩
  have := this.2.2
  simpa using this

/-- The public-exponent sampling loop of `generar_claves`:
`random.randrange(1, phi, 2)` realises the abstract draw `k` as the odd
value `1 + 2*(k % (phi // 2))` of `[1, phi)`, and the loop keeps drawing
until the draw is coprime with `phi`.  The abstract draw list is finite,
so a run that never hits a coprime value is modelled as `none` (the
source would keep looping). -/
def elige_e (phi : Int) : List Nat → Option Int
  | [] => none
  | k :: rest =>
    if coprimos phi (1 + 2 * ((k : Int) % (phi / 2)))
    then some (1 + 2 * ((k : Int) % (phi / 2)))
    else elige_e phi rest

theorem elige_e_some (phi : Int) (cands : List Nat) (e : Int)
    (h : elige_e phi cands = some e) :
    coprimos phi e = true ∧ ∃ k : Nat, e = 1 + 2 * ((k : Int) % (phi / 2)) := by
  induction cands with
  | nil => cases h
  | cons k rest ih =>
    unfold elige_e at h
    by_cases hc : coprimos phi (1 + 2 * ((k : Int) % (phi / 2))) = true
    · rw [if_pos hc] at h
      simp only [Option.some.injEq] at h
      subst h
      exact ⟨hc, k, rfl⟩
    · rw [if_neg hc] at h
      exact ih h

theorem elige_e_props (phi : Int) (cands : List Nat) (e : Int) (hphi : 2 ≤ phi)
    (h : elige_e phi cands = some e) :
    coprimos phi e = true ∧ e % 2 = 1 ∧ 1 ≤ e ∧ e < phi := by
  obtain ⟨hc, k, hk⟩ := elige_e_some phi cands e h
  have hd2 : 0 < phi / 2 := by omega
  have h1 : 0 ≤ (k : Int) % (phi / 2) := Int.emod_nonneg _ (by omega)
  have h2 : (k : Int) % (phi / 2) < phi / 2 := Int.emod_lt_of_pos _ hd2
  have h3 : 2 * (phi / 2) ≤ phi := by omega
  subst hk
  refine ⟨hc, by omega, by omega, by omega⟩

/-- Embeds `rsa.generar_claves(min_primo, max_primo)`: draws two distinct
primes, forms `n = p*q` and `phi = (p-1)*(q-1)`, samples a random odd
public exponent coprime with `phi`, and takes `d` as its modular inverse.
The two seed draws and the exponent draws are the explicit parameters;
the final `.ok _` arm is unreachable (two seeds always produce a
two-element list) and models the tuple destructuring of the source. -/
def generar_claves (min_primo max_primo : Int) (k1 k2 : Nat) (cands : List Nat) :
    Except PyError (Int × Int × Int) :=
  match generar_numeros_primos min_primo max_primo 2 [k1, k2] with
  | .error err => .error err
  | .ok [primo_1, primo_2] =>
    match elige_e ((primo_1 - 1) * (primo_2 - 1)) cands with
    | none => .error .valueError
    | some e =>
      match inversa_mod_p e ((primo_1 - 1) * (primo_2 - 1)) with
      | .error err => .error err
      | .ok d => .ok (primo_1 * primo_2, e, d)
  | .ok _ => .error .valueError

theorem phi_ge_two (p q : Int) (hp : 2 ≤ p) (hq : 2 ≤ q) (hne : p ≠ q) :
    2 ≤ (p - 1) * (q - 1) := by
  by_cases h2 : p = 2
  · subst h2
    have : 3 ≤ q := by omega
    nlinarith
  · have h3 : 3 ≤ p := by omega
    nlinarith

theorem generar_claves_ok (min_primo max_primo : Int) (k1 k2 : Nat) (cands : List Nat)
    (n e d : Int) (h : generar_claves min_primo max_primo k1 k2 cands = .ok (n, e, d)) :
    ∃ p q : Int, es_primo p = true ∧ es_primo q = true ∧ p ≠ q ∧
      min_primo ≤ p ∧ p < max_primo ∧ min_primo ≤ q ∧ q < max_primo ∧
      n = p * q ∧
      e % 2 = 1 ∧ 1 ≤ e ∧ e < (p - 1) * (q - 1) ∧
      coprimos ((p - 1) * (q - 1)) e = true ∧
      0 ≤ d ∧ d < (p - 1) * (q - 1) ∧
      e * d % ((p - 1) * (q - 1)) = 1 ∧
      inversa_mod_p e ((p - 1) * (q - 1)) = .ok d := by
  unfold generar_claves at h
  rcases hgnp : generar_numeros_primos min_primo max_primo 2 [k1, k2] with err | l
  · rw [hgnp] at h; cases h
  obtain ⟨hnd, hprops, hlen⟩ := generar_numeros_primos_ok min_primo max_primo 2 [k1, k2] l hgnp
  simp only [List.length_cons, List.length_nil] at hlen
  match l, hlen with
  | [p, q], _ =>
    rw [hgnp] at h
    have hp := hprops p (by simp)
    have hq := hprops q (by simp)
    have hpne : p ≠ q := by
      rcases List.nodup_cons.mp hnd with ⟨hpm, _⟩
      simpa using hpm
    have hp2 : 2 ≤ p := ((es_primo_iff p).mp hp.1).1
    have hq2 : 2 ≤ q := ((es_primo_iff q).mp hq.1).1
    have hphi : 2 ≤ (p - 1) * (q - 1) := phi_ge_two p q hp2 hq2 hpne
    have hmid : (match elige_e ((p - 1) * (q - 1)) cands with
        | none => (Except.error PyError.valueError : Except PyError (Int × Int × Int))
        | some e0 =>
          match inversa_mod_p e0 ((p - 1) * (q - 1)) with
          | .error err => .error err
          | .ok d0 => .ok (p * q, e0, d0)) = .ok (n, e, d) := h
    rcases he : elige_e ((p - 1) * (q - 1)) cands with _ | e'
    · have h' : (Except.error PyError.valueError : Except PyError (Int × Int × Int)) =
          .ok (n, e, d) := by rw [he] at hmid; exact hmid
      cases h'
    · rw [he] at hmid
      have hmid2 : (match inversa_mod_p e' ((p - 1) * (q - 1)) with
          | .error err => (Except.error err : Except PyError (Int × Int × Int))
          | .ok d0 => .ok (p * q, e', d0)) = .ok (n, e, d) := hmid
      rcases hinv : inversa_mod_p e' ((p - 1) * (q - 1)) with err | d'
      · have h' : (Except.error err : Except PyError (Int × Int × Int)) = .ok (n, e, d) := by
          rw [hinv] at hmid2; exact hmid2
        cases h'
      · have h' : (Except.ok (p * q, e', d') : Except PyError (Int × Int × Int)) =
            .ok (n, e, d) := by rw [hinv] at hmid2; exact hmid2
        simp only [Except.ok.injEq, Prod.mk.injEq] at h'
        obtain ⟨hn, he', hd'⟩ := h'
        subst hn
        subst he'
        subst hd'
        obtain ⟨hc, hodd, he1, helt⟩ := elige_e_props _ cands e' hphi he
        obtain ⟨hm0, hgcd, hd0, hdlt, hinv1⟩ := inversa_mod_p_ok e' ((p - 1) * (q - 1)) d' hinv
        have h1mod : (1 : Int) % ((p - 1) * (q - 1)) = 1 := Int.emod_eq_of_lt (by omega) (by omega)
        rw [h1mod] at hinv1
        exact ⟨p, q, hp.1, hq.1, hpne, hp.2.1, hp.2.2, hq.2.1, hq.2.2, rfl,
          hodd, he1, helt, hc, hd0, hdlt, hinv1, hinv⟩

/-- Embeds `int(math.log10(m))` exactly as the source evaluates it: exact over the
integers, raising the `ValueError` (domain error) of `math.log10` when
`m ≤ 0`. -/
def int_log10 (m : Int) : Except PyError Int :=
  if m ≤ 0 then .error .valueError else .ok (cuenta_digitos m - 1)

/-- Embeds `rsa.aplicar_padding(m, digitos_padding)`: validates both inputs
non-negative and appends `digitos_padding` random decimal digits to the decimal
representation of `m`; the digits are realised from the abstract draw as
`draw % 10^digitos_padding`. -/
def aplicar_padding (m digitos_padding : Int) (draw : Nat) : Except PyError Int :=
  if digitos_padding < 0 ∨ m < 0 then .error .valueError
  else .ok (m * 10 ^ digitos_padding.toNat + ((draw % 10 ^ digitos_padding.toNat : Nat) : Int))

/-- Embeds `rsa.eliminar_padding(m, digitos_padding)`: requires
`0 ≤ digitos_padding < int(log10(m)) + 1` (raising `ValueError`
otherwise, including the `math.log10` domain error for `m ≤ 0`), then
integer-divides by `10^digitos_padding`. -/
def eliminar_padding (m digitos_padding : Int) : Except PyError Int :=
  if digitos_padding < 0 then .error .valueError
  else
    match int_log10 m with
    | .error err => .error err
    | .ok lg =>
      if digitos_padding < lg + 1 then .ok (m / 10 ^ digitos_padding.toNat)
      else .error .valueError

/-- Embeds `rsa.cifrar_rsa(m, n, e, digitos_padding)`: validates all inputs
non-negative, asserts that the digit count of the padded message stays
strictly below the digit count of the modulus (evaluating `log10(m)` first,
then `log10(n)`), then pads and exponentiates. -/
def cifrar_rsa (m n e digitos_padding : Int) (draw : Nat) : Except PyError Int :=
  if m < 0 ∨ n < 0 ∨ e < 0 ∨ digitos_padding < 0 then .error .valueError
  else
    match int_log10 m with
    | .error err => .error err
    | .ok lgm =>
      match int_log10 n with
      | .error err => .error err
      | .ok lgn =>
        if lgm + 1 + digitos_padding < lgn + 1 then
          match aplicar_padding m digitos_padding draw with
          | .error err => .error err
          | .ok padded => potencia_mod_p padded e n
        else .error .assertionError

/-- Embeds `rsa.descifrar_rsa(c, n, d, digitos_padding)`: modular exponentiation
with the private exponent followed by padding removal. -/
def descifrar_rsa (c n d digitos_padding : Int) : Except PyError Int :=
  match potencia_mod_p c d n with
  | .error err => .error err
  | .ok c2 => eliminar_padding c2 digitos_padding

/-- The builtin `chr` of Python: valid for code points in `[0, 0x10FFFF]`, raising
`ValueError` outside that range.  Characters are embedded as their code
points. -/
def pychr (v : Int) : Except PyError Int :=
  if v < 0 ∨ 1114111 < v then .error .valueError else .ok v

/-- Embeds `rsa.cifrar_cadena_rsa(s, n, e, digitos_padding)`: encrypts each
character code of the string in order; one padding draw is consumed per
character. -/
def cifrar_cadena_rsa : List Int → Int → Int → Int → List Nat → Except PyError (List Int)
  | [], _, _, _, _ => .ok []
  | c :: rest, n, e, digitos_padding, draws =>
    match cifrar_rsa c n e digitos_padding (draws.headD 0) with
    | .error err => .error err
    | .ok x =>
      match cifrar_cadena_rsa rest n e digitos_padding draws.tail with
      | .error err => .error err
      | .ok xs => .ok (x :: xs)

/-- Embeds `rsa.descifrar_cadena_rsa(clist, n, d, digitos_padding)`: decrypts
each cipher value in order and maps it back through `chr`; the first
failure aborts the whole string. -/
def descifrar_cadena_rsa : List Int → Int → Int → Int → Except PyError (List Int)
  | [], _, _, _ => .ok []
  | c :: rest, n, d, digitos_padding =>
    match descifrar_rsa c n d digitos_padding with
    | .error err => .error err
    | .ok m =>
      match pychr m with
      | .error err => .error err
      | .ok ch =>
        match descifrar_cadena_rsa rest n d digitos_padding with
        | .error err => .error err
        | .ok ms => .ok (ch :: ms)

/-- Embeds `rsa.romper_clave(n, e)`: asserts `1 < e < phi` with
`phi = modular.euler(n)` and `coprimos(phi, e)`, then returns the modular
inverse of `e` modulo `phi`. -/
def romper_clave (n e : Int) : Except PyError Int :=
  if 1 < e ∧ e < euler n ∧ coprimos (euler n) e = true
  then inversa_mod_p e (euler n)
  else .error .assertionError

/-- The code points of the fixed literal `"test-message"` used by
`criptochat.valid`. -/
def test_message : List Int := [116, 101, 115, 116, 45, 109, 101, 115, 115, 97, 103, 101]

/-- Embeds `criptochat.PADDING_DIGITS`, the process-wide padding digit count
(its default value, as used by `valid`). -/
def PADDING_DIGITS : Int := 10

/-- The round trip computed inside `criptochat.valid`: encrypt the fixed
literal with the public key, then decrypt with the private key, both
under `PADDING_DIGITS` padding digits. -/
def valid_roundtrip (n e d : Int) (draws : List Nat) : Except PyError (List Int) :=
  match cifrar_cadena_rsa test_message n e PADDING_DIGITS draws with
  | .error err => .error err
  | .ok c => descifrar_cadena_rsa c n d PADDING_DIGITS

/-- Embeds `criptochat.valid(n, e, d)`: returns `True` iff the round trip
reproduces the literal; its `try` block catches only `OverflowError`
(returning `False`), so every other error kind propagates. -/
def valid (n e d : Int) (draws : List Nat) : Except PyError Bool :=
  match valid_roundtrip n e d draws with
  | .ok s => .ok (s = test_message)
  | .error .overflowError => .ok false
  | .error err => .error err

/-- One inbox container of `criptochat.User`: sender id, date stamp, and
either an encrypted message or the corrupted-message sentinel `None`. -/
structure Contenedor where
  emisor : Int
  fecha : Int
  mensaje : Option (List Int)
deriving DecidableEq

/-- The per-container step of `criptochat.User.check_inbox`: a `None`
message renders as the corrupted marker; otherwise the message is
decrypted, with a `ValueError` caught and rendered as the corrupted
marker (`"MENSAJE CORRUPTO"`, embedded as `none`).  Any other error kind
is not caught by the source and propagates. -/
def descifra_contenedor (n d digitos_padding : Int) (mensaje : Option (List Int)) :
    Except PyError (Option (List Int)) :=
  match mensaje with
  | none => .ok none
  | some msg =>
    match descifrar_cadena_rsa msg n d digitos_padding with
    | .ok s => .ok (some s)
    | .error .valueError => .ok none
    | .error err => .error err

/-- Embeds `criptochat.User.check_inbox` over a non-`None` inbox: decrypts every
container with the private key of the user, preserving sender and date, and
isolating decryption failures to the single container in which they
occur. -/
def check_inbox (n d digitos_padding : Int) :
    List Contenedor → Except PyError (List (Int × Int × Option (List Int)))
  | [] => .ok []
  | c :: rest =>
    match descifra_contenedor n d digitos_padding c.mensaje with
    | .error err => .error err
    | .ok m =>
      match check_inbox n d digitos_padding rest with
      | .error err => .error err
      | .ok items => .ok ((c.emisor, c.fecha, m) :: items)


theorem pow_mod_prime (p : Nat) (hp : p.Prime) (t : Nat) (h1 : 1 ≤ t)
    (hmod : t ≡ 1 [MOD p - 1]) (x : Nat) : x ^ t ≡ x [MOD p] := by
  by_cases hdvd : p ∣ x
  · have hx : x ≡ 0 [MOD p] := (Nat.modEq_zero_iff_dvd).mpr hdvd
    have hxt : x ^ t ≡ 0 [MOD p] := by
      rw [Nat.modEq_zero_iff_dvd]
      exact hdvd.trans (dvd_pow_self x (by omega))
    exact hxt.trans hx.symm
  · have hcop : x.Coprime p := ((Nat.Prime.coprime_iff_not_dvd hp).mpr hdvd).symm
    have hfermat : x ^ (p - 1) ≡ 1 [MOD p] := by
      have := Nat.ModEq.pow_totient hcop
      rwa [Nat.totient_prime hp] at this
    obtain ⟨c, hc⟩ := (Nat.modEq_iff_dvd' h1).mp hmod.symm
    have ht : t = (p - 1) * c + 1 := by omega
    calc x ^ t = (x ^ (p - 1)) ^ c * x := by rw [ht, pow_add, pow_mul, pow_one]
      _ ≡ 1 ^ c * x [MOD p] := (hfermat.pow c).mul_right x
      _ = x := by ring

theorem rsa_core (p q : Nat) (hp : p.Prime) (hq : q.Prime) (hne : p ≠ q)
    (t : Nat) (h1 : 1 ≤ t) (hmod : t % ((p - 1) * (q - 1)) = 1) (x : Nat) :
    x ^ t % (p * q) = x % (p * q) := by
  have hp2 := hp.two_le
  have hq2 := hq.two_le
  have h2 : 2 ≤ (p - 1) * (q - 1) := by
    rcases Nat.lt_or_ge p q with h | h
    · have hmul : 1 * 2 ≤ (p - 1) * (q - 1) := Nat.mul_le_mul (by omega) (by omega)
      omega
    · have hqp : q < p := by omega
      have hmul : 2 * 1 ≤ (p - 1) * (q - 1) := Nat.mul_le_mul (by omega) (by omega)
      omega
  have hmodEq : t ≡ 1 [MOD (p - 1) * (q - 1)] := by
    unfold Nat.ModEq
    rw [hmod, Nat.mod_eq_of_lt (by omega)]
  have hcop : p.Coprime q := (Nat.coprime_primes hp hq).mpr hne
  have hmp : x ^ t ≡ x [MOD p] :=
    pow_mod_prime p hp t h1 (hmodEq.of_dvd (dvd_mul_right _ _)) x
  have hmq : x ^ t ≡ x [MOD q] :=
    pow_mod_prime q hq t h1 (hmodEq.of_dvd (dvd_mul_left _ _)) x
  exact (Nat.modEq_and_modEq_iff_modEq_mul hcop).mp ⟨hmp, hmq⟩

theorem log_padded (M K S : Nat) (hM : 1 ≤ M) (hS : S < 10 ^ K) :
    Nat.log 10 (M * 10 ^ K + S) = Nat.log 10 M + K := by
  have hpow : (0 : Nat) < 10 ^ K := Nat.pos_pow_of_pos K (by norm_num)
  refine Nat.log_eq_of_pow_le_of_lt_pow ?_ ?_
  · rw [pow_add]
    have := Nat.pow_log_le_self 10 (show M ≠ 0 by omega)
    nlinarith
  · have hupper : M + 1 ≤ 10 ^ (Nat.log 10 M + 1) := Nat.lt_pow_succ_log_self (by norm_num) M
    calc M * 10 ^ K + S < (M + 1) * 10 ^ K := by nlinarith
      _ ≤ 10 ^ (Nat.log 10 M + 1) * 10 ^ K := by
          exact Nat.mul_le_mul_right _ hupper
      _ = 10 ^ (Nat.log 10 M + K + 1) := by rw [← pow_add]; ring_nf
      _ = 10 ^ (Nat.log 10 M + K + 1) := rfl

theorem lt_of_log10_lt (A B : Nat) (_hA : 1 ≤ A) (hB : 1 ≤ B)
    (h : Nat.log 10 A < Nat.log 10 B) : A < B := by
  have h1 : A < 10 ^ (Nat.log 10 A + 1) := Nat.lt_pow_succ_log_self (by norm_num) A
  have h2 : 10 ^ (Nat.log 10 A + 1) ≤ 10 ^ (Nat.log 10 B) :=
    Nat.pow_le_pow_right (by norm_num) (by omega)
  have h3 : 10 ^ (Nat.log 10 B) ≤ B := Nat.pow_log_le_self 10 (by omega)
  omega

theorem cifrar_rsa_ok (m n e k : Int) (draw : Nat) (hm : 1 ≤ m) (hn : 1 ≤ n)
    (he : 0 ≤ e) (hk : 0 ≤ k) (hdig : cuenta_digitos m + k < cuenta_digitos n) :
    ∃ s : Int, 0 ≤ s ∧ s < 10 ^ k.toNat ∧
      cifrar_rsa m n e k draw = potencia_mod_p (m * 10 ^ k.toNat + s) e n ∧
      m * 10 ^ k.toNat + s < n ∧
      cuenta_digitos (m * 10 ^ k.toNat + s) = cuenta_digitos m + k := by
  have hpow : (0 : Int) < 10 ^ k.toNat := by positivity
  set s : Int := ((draw % 10 ^ k.toNat : Nat) : Int) with hs
  have hs0 : 0 ≤ s := Int.natCast_nonneg _
  have hslt : s < 10 ^ k.toNat := by
    have := Nat.mod_lt draw (show 0 < 10 ^ k.toNat from Nat.pos_pow_of_pos _ (by norm_num))
    have hc : ((10 ^ k.toNat : Nat) : Int) = 10 ^ k.toNat := by push_cast; rfl
    omega
  have hpadded1 : 1 ≤ m * 10 ^ k.toNat + s := by nlinarith
  have hlogm := cuenta_digitos_eq_log m hm
  have hlogn := cuenta_digitos_eq_log n hn
  have hlogp := cuenta_digitos_eq_log _ hpadded1
  have hcast : ((draw % 10 ^ k.toNat : Nat) : Int) = (draw : Int) % 10 ^ k.toNat := by
    push_cast
    rfl
  have htoNat : (m * 10 ^ k.toNat + s).toNat = m.toNat * 10 ^ k.toNat + draw % 10 ^ k.toNat := by
    have hh : ((m.toNat * 10 ^ k.toNat + draw % 10 ^ k.toNat : Nat) : Int) =
        m * 10 ^ k.toNat + s := by
      push_cast
      rw [Int.toNat_of_nonneg (by omega : (0 : Int) ≤ m), hs, hcast]
    omega
  have hSlt : draw % 10 ^ k.toNat < 10 ^ k.toNat :=
    Nat.mod_lt draw (Nat.pos_pow_of_pos _ (by norm_num))
  have hlog_eq : Nat.log 10 ((m * 10 ^ k.toNat + s).toNat) =
      Nat.log 10 m.toNat + k.toNat := by
    rw [htoNat]
    exact log_padded m.toNat k.toNat (draw % 10 ^ k.toNat) (by omega) hSlt
  have hcuenta : cuenta_digitos (m * 10 ^ k.toNat + s) = cuenta_digitos m + k := by
    rw [hlogp, hlog_eq, hlogm]
    push_cast
    omega
  have hlt : m * 10 ^ k.toNat + s < n := by
    have hloglt : Nat.log 10 ((m * 10 ^ k.toNat + s).toNat) < Nat.log 10 n.toNat := by
      have : cuenta_digitos (m * 10 ^ k.toNat + s) < cuenta_digitos n := by omega
      rw [hlogp, hlogn] at this
      omega
    have := lt_of_log10_lt ((m * 10 ^ k.toNat + s).toNat) n.toNat (by omega) (by omega) hloglt
    omega
  refine ⟨s, hs0, hslt, ?_, hlt, hcuenta⟩
  have hlg_m : int_log10 m = .ok (cuenta_digitos m - 1) := by
    unfold int_log10
    rw [if_neg (by omega)]
  have hlg_n : int_log10 n = .ok (cuenta_digitos n - 1) := by
    unfold int_log10
    rw [if_neg (by omega)]
  have hpad : aplicar_padding m k draw = .ok (m * 10 ^ k.toNat + s) := by
    unfold aplicar_padding
    rw [if_neg (by omega)]
  unfold cifrar_rsa
  rw [if_neg (by omega)]
  simp only [hlg_m, hlg_n, hpad]
  rw [if_pos (by omega)]

theorem eliminar_padding_ok (v k : Int) (hv : 1 ≤ v) (hk : 0 ≤ k)
    (hdig : k < cuenta_digitos v) :
    eliminar_padding v k = .ok (v / 10 ^ k.toNat) := by
  have hlg : int_log10 v = .ok (cuenta_digitos v - 1) := by
    unfold int_log10
    rw [if_neg (by omega)]
  unfold eliminar_padding
  rw [if_neg (by omega)]
  simp only [hlg]
  rw [if_pos (by omega)]

theorem rsa_roundtrip (p q n e d m k : Int) (draw : Nat)
    (hp : es_primo p = true) (hq : es_primo q = true) (hpq : p ≠ q)
    (hn : n = p * q) (he1 : 1 ≤ e) (hd0 : 0 ≤ d)
    (hed : e * d % ((p - 1) * (q - 1)) = 1)
    (hm : 1 ≤ m) (hk : 0 ≤ k) (hdig : cuenta_digitos m + k < cuenta_digitos n) :
    ∃ c, cifrar_rsa m n e k draw = .ok c ∧ descifrar_rsa c n d k = .ok m := by
  obtain ⟨hp2, hpP⟩ := (es_primo_iff p).mp hp
  obtain ⟨hq2, hqP⟩ := (es_primo_iff q).mp hq
  have hn1 : 1 ≤ n := by nlinarith
  obtain ⟨s, hs0, hslt, henc, hlt, hcuenta⟩ := cifrar_rsa_ok m n e k draw hm hn1 (by omega) hk hdig
  have hpow10 : (0 : Int) < 10 ^ k.toNat := by positivity
  have hP1 : 1 ≤ m * 10 ^ k.toNat + s := by nlinarith
  have hpot := potencia_mod_p_ok (m * 10 ^ k.toNat + s) e n (by omega) (by omega) (by omega)
  refine ⟨(((m * 10 ^ k.toNat + s).toNat ^ e.toNat % n.toNat : Nat) : Int), henc.trans hpot, ?_⟩
  have hps : ((p.toNat - 1 : Nat) : Int) = p - 1 := by omega
  have hqs : ((q.toNat - 1 : Nat) : Int) = q - 1 := by omega
  have hedNat : e.toNat * d.toNat % ((p.toNat - 1) * (q.toNat - 1)) = 1 := by
    have hcast : ((e.toNat * d.toNat % ((p.toNat - 1) * (q.toNat - 1)) : Nat) : Int) =
        e * d % ((p - 1) * (q - 1)) := by
      push_cast
      rw [hps, hqs, Int.toNat_of_nonneg (by omega : (0 : Int) ≤ e),
        Int.toNat_of_nonneg hd0]
    omega
  have ht1 : 1 ≤ e.toNat * d.toNat := by
    by_cases h0 : e.toNat * d.toNat = 0
    · rw [h0, Nat.zero_mod] at hedNat
      cases hedNat
    · omega
  have hNn : n.toNat = p.toNat * q.toNat := by
    have : ((p.toNat * q.toNat : Nat) : Int) = n := by
      push_cast
      rw [Int.toNat_of_nonneg (by omega : (0 : Int) ≤ p),
        Int.toNat_of_nonneg (by omega : (0 : Int) ≤ q), hn]
    omega
  have hpqN : p.toNat ≠ q.toNat := by omega
  have hcore := rsa_core p.toNat q.toNat hpP hqP hpqN (e.toNat * d.toNat) ht1 hedNat
    (m * 10 ^ k.toNat + s).toNat
  rw [← hNn] at hcore
  have hPlt : (m * 10 ^ k.toNat + s).toNat < n.toNat := by omega
  have hPmod : (m * 10 ^ k.toNat + s).toNat % n.toNat = (m * 10 ^ k.toNat + s).toNat :=
    Nat.mod_eq_of_lt hPlt
  have hc0 : (0 : Int) ≤ (((m * 10 ^ k.toNat + s).toNat ^ e.toNat % n.toNat : Nat) : Int) :=
    Int.natCast_nonneg _
  have hpot2 := potencia_mod_p_ok
    (((m * 10 ^ k.toNat + s).toNat ^ e.toNat % n.toNat : Nat) : Int) d n hc0 hd0 (by omega)
  have hc2val : ((((m * 10 ^ k.toNat + s).toNat ^ e.toNat % n.toNat : Nat) : Int)).toNat ^
      d.toNat % n.toNat = (m * 10 ^ k.toNat + s).toNat := by
    rw [Int.toNat_natCast, ← Nat.pow_mod, ← pow_mul, hcore, hPmod]
  have hdec_pot : potencia_mod_p
      (((m * 10 ^ k.toNat + s).toNat ^ e.toNat % n.toNat : Nat) : Int) d n =
      .ok (m * 10 ^ k.toNat + s) := by
    rw [hpot2, hc2val, Int.toNat_of_nonneg (by omega : (0 : Int) ≤ m * 10 ^ k.toNat + s)]
  have hcm1 : 1 ≤ cuenta_digitos m := by
    rw [cuenta_digitos_eq_log m hm]
    omega
  have helim : eliminar_padding (m * 10 ^ k.toNat + s) k = .ok m := by
    rw [eliminar_padding_ok (m * 10 ^ k.toNat + s) k hP1 hk (by omega)]
    congr 1
    rw [add_comm, Int.add_mul_ediv_right s m (by positivity),
      Int.ediv_eq_zero_of_lt hs0 hslt, zero_add]
  unfold descifrar_rsa
  simp only [hdec_pot]
  exact helim

/-- Claim C1: for every keypair `(n, e, d)` produced by `generar_claves`,
every message `m ≥ 1` and every padding digit count `k ≥ 0` whose sum of
digit counts stays strictly below the digit count of `n`,
`descifrar_rsa (cifrar_rsa m n e k) n d k` returns `m`. -/
theorem claim_C1_roundtrip (min_primo max_primo : Int) (k1 k2 : Nat) (cands : List Nat)
    (n e d : Int) (hgen : generar_claves min_primo max_primo k1 k2 cands = .ok (n, e, d))
    (m k : Int) (hm : 1 ≤ m) (hk : 0 ≤ k)
    (hdig : cuenta_digitos m + k < cuenta_digitos n) (draw : Nat) :
    ∃ c, cifrar_rsa m n e k draw = .ok c ∧ descifrar_rsa c n d k = .ok m := by
  obtain ⟨p, q, hp, hq, hpq, _, _, _, _, hn, _, he1, _, _, hd0, _, hed, _⟩ :=
    generar_claves_ok min_primo max_primo k1 k2 cands n e d hgen
  exact rsa_roundtrip p q n e d m k draw hp hq hpq hn he1 hd0 hed hm hk hdig

theorem claim_C1_roundtrip_witness :
    (generar_claves 3 8 2 4 [2] = .ok (35, 5, 5)) ∧
    ∃ c, cifrar_rsa 4 35 5 0 0 = .ok c ∧ descifrar_rsa c 35 5 0 = .ok 4 :=
  ⟨by decide, claim_C1_roundtrip 3 8 2 4 [2] 35 5 5 (by decide) 4 0 (by decide) (by decide)
    (by decide) 0⟩

theorem euler_keypair (p q n : Int) (hp : es_primo p = true) (hq : es_primo q = true)
    (hn : n = p * q) : euler n = (p - 1) * (q - 1) := by
  obtain ⟨hp2, hpP⟩ := (es_primo_iff p).mp hp
  obtain ⟨hq2, hqP⟩ := (es_primo_iff q).mp hq
  have hNn : n.toNat = p.toNat * q.toNat := by
    have hc : ((p.toNat * q.toNat : Nat) : Int) = n := by
      push_cast
      rw [Int.toNat_of_nonneg (by omega : (0 : Int) ≤ p),
        Int.toNat_of_nonneg (by omega : (0 : Int) ≤ q), hn]
    omega
  have h2 : euler n = euler ((p.toNat * q.toNat : Nat) : Int) := by
    simp only [euler, Int.toNat_natCast, hNn]
  rw [h2, euler_semiprime p.toNat q.toNat hpP hqP]
  push_cast
  rw [show ((p.toNat - 1 : Nat) : Int) = p - 1 by omega,
    show ((q.toNat - 1 : Nat) : Int) = q - 1 by omega]

/-- Claim C4: `romper_clave` applied to the public half of a generated
keypair with `e > 1` recovers the original private exponent `d`, and it
fails with an assertion-style domain error whenever `e` is not strictly
between 1 and `phi = euler(n)` or is not coprime with `phi`. -/
theorem claim_C4_romper_clave :
    (∀ (min_primo max_primo : Int) (k1 k2 : Nat) (cands : List Nat) (n e d : Int),
      generar_claves min_primo max_primo k1 k2 cands = .ok (n, e, d) → 1 < e →
      romper_clave n e = .ok d) ∧
    (∀ n e : Int, ¬ (1 < e ∧ e < euler n ∧ coprimos (euler n) e = true) →
      romper_clave n e = .error .assertionError) := by
  constructor
  · intro min_primo max_primo k1 k2 cands n e d hgen he1
    obtain ⟨p, q, hp, hq, hpq, _, _, _, _, hn, _, _, helt, hc, _, _, _, hinv⟩ :=
      generar_claves_ok min_primo max_primo k1 k2 cands n e d hgen
    have heul : euler n = (p - 1) * (q - 1) := euler_keypair p q n hp hq hn
    unfold romper_clave
    rw [if_pos ⟨he1, by rw [heul]; exact helt, by rw [heul]; exact hc⟩, heul]
    exact hinv
  · intro n e h
    unfold romper_clave
    rw [if_neg h]

theorem claim_C4_romper_clave_witness :
    romper_clave 35 5 = .ok 5 ∧ romper_clave 35 1 = .error .assertionError :=
  ⟨claim_C4_romper_clave.1 3 8 2 4 [2] 35 5 5 (by decide) (by decide),
    claim_C4_romper_clave.2 35 1 (by decide)⟩

/-- Claim C5: whenever `generar_numeros_primos` returns normally it
returns exactly `numero` pairwise-distinct primes in
`[min_primo, max_primo)`; it fails with a range error when `numero < 1`
or `min_primo > max_primo`, and when no prime of the interval remains
(e.g. requesting a prime from the primeless interval `[8, 11)`). -/
theorem claim_C5_generar_numeros_primos :
    (∀ (min_primo max_primo numero : Int) (draws : List Nat) (l : List Int),
      numero.toNat = draws.length →
      generar_numeros_primos min_primo max_primo numero draws = .ok l →
      l.length = numero.toNat ∧ l.Nodup ∧
        ∀ p ∈ l, es_primo p = true ∧ min_primo ≤ p ∧ p < max_primo) ∧
    (∀ (min_primo max_primo numero : Int) (draws : List Nat),
      numero < 1 →
      generar_numeros_primos min_primo max_primo numero draws = .error .valueError) ∧
    (∀ (min_primo max_primo numero : Int) (draws : List Nat),
      max_primo < min_primo →
      generar_numeros_primos min_primo max_primo numero draws = .error .valueError) ∧
    (∀ k : Nat, generar_numeros_primos 8 11 1 [k] = .error .valueError) := by
  refine ⟨?_, ?_, ?_, ?_⟩
  · intro min_primo max_primo numero draws l hlen h
    obtain ⟨h1, h2, h3⟩ := generar_numeros_primos_ok min_primo max_primo numero draws l h
    exact ⟨by omega, h1, h2⟩
  · intro min_primo max_primo numero draws h
    unfold generar_numeros_primos
    rw [if_pos h]
  · intro min_primo max_primo numero draws h
    unfold generar_numeros_primos
    by_cases h1 : numero < 1
    · rw [if_pos h1]
    · rw [if_neg h1, if_pos (by omega)]
  · intro k
    have hred : generar_numeros_primos 8 11 1 [k] =
        procesa_lista 8 11 [7 + (k : Int) % 5] [] := by
      unfold generar_numeros_primos
      rw [if_neg (by omega), if_neg (by omega)]
      simp only [List.map_cons, List.map_nil]
      unfold randint
      norm_num
    rw [hred]
    have h5 : (k : Int) % 5 = 0 ∨ (k : Int) % 5 = 1 ∨ (k : Int) % 5 = 2 ∨
        (k : Int) % 5 = 3 ∨ (k : Int) % 5 = 4 := by omega
    rcases h5 with h | h | h | h | h <;> rw [h] <;> decide

theorem claim_C5_generar_numeros_primos_witness :
    ([5, 7] : List Int).length = (2 : Int).toNat ∧ ([5, 7] : List Int).Nodup ∧
      (∀ p ∈ ([5, 7] : List Int), es_primo p = true ∧ 3 ≤ p ∧ p < 8) :=
  claim_C5_generar_numeros_primos.1 3 8 2 [2, 4] [5, 7] (by decide) (by decide)

/-- Claim C8: every triple `(n, e, d)` returned by `generar_claves`
satisfies the keypair invariant: `n = p*q` for distinct primes of
`[min_primo, max_primo)`, `e` odd in `[1, phi)` and coprime with
`phi = (p-1)*(q-1)`, and `d` the modular inverse of `e` modulo `phi`. -/
theorem claim_C8_generar_claves (min_primo max_primo : Int) (k1 k2 : Nat) (cands : List Nat)
    (n e d : Int) (hgen : generar_claves min_primo max_primo k1 k2 cands = .ok (n, e, d)) :
    ∃ p q : Int, es_primo p = true ∧ es_primo q = true ∧ p ≠ q ∧
      min_primo ≤ p ∧ p < max_primo ∧ min_primo ≤ q ∧ q < max_primo ∧
      n = p * q ∧
      e % 2 = 1 ∧ 1 ≤ e ∧ e < (p - 1) * (q - 1) ∧
      coprimos ((p - 1) * (q - 1)) e = true ∧
      0 ≤ d ∧ d < (p - 1) * (q - 1) ∧ e * d % ((p - 1) * (q - 1)) = 1 := by
  obtain ⟨p, q, h1, h2, h3, h4, h5, h6, h7, h8, h9, h10, h11, h12, h13, h14, h15, _⟩ :=
    generar_claves_ok min_primo max_primo k1 k2 cands n e d hgen
  exact ⟨p, q, h1, h2, h3, h4, h5, h6, h7, h8, h9, h10, h11, h12, h13, h14, h15⟩

theorem claim_C8_generar_claves_witness :
    ∃ p q : Int, es_primo p = true ∧ es_primo q = true ∧ p ≠ q ∧
      3 ≤ p ∧ p < 8 ∧ 3 ≤ q ∧ q < 8 ∧
      (35 : Int) = p * q ∧
      (5 : Int) % 2 = 1 ∧ 1 ≤ (5 : Int) ∧ (5 : Int) < (p - 1) * (q - 1) ∧
      coprimos ((p - 1) * (q - 1)) 5 = true ∧
      0 ≤ (5 : Int) ∧ (5 : Int) < (p - 1) * (q - 1) ∧
      (5 : Int) * 5 % ((p - 1) * (q - 1)) = 1 :=
  claim_C8_generar_claves 3 8 2 4 [2] 35 5 5 (by decide)

/-- Claim C9: for `m ≥ 0` and `digitos_padding ≥ 0`, `aplicar_padding`
returns `m * 10^digitos_padding + s` for some suffix `0 ≤ s <
10^digitos_padding`; it fails with a validation error whenever
`digitos_padding < 0` or `m < 0`. -/
theorem claim_C9_aplicar_padding :
    (∀ (m digitos_padding : Int) (draw : Nat), 0 ≤ m → 0 ≤ digitos_padding →
      ∃ s : Int, 0 ≤ s ∧ s < 10 ^ digitos_padding.toNat ∧
        aplicar_padding m digitos_padding draw = .ok (m * 10 ^ digitos_padding.toNat + s)) ∧
    (∀ (m digitos_padding : Int) (draw : Nat), digitos_padding < 0 ∨ m < 0 →
      aplicar_padding m digitos_padding draw = .error .valueError) := by
  constructor
  · intro m digitos_padding draw hm hd
    refine ⟨((draw % 10 ^ digitos_padding.toNat : Nat) : Int), Int.natCast_nonneg _, ?_, ?_⟩
    · have h1 : draw % 10 ^ digitos_padding.toNat < 10 ^ digitos_padding.toNat :=
        Nat.mod_lt draw (Nat.pos_pow_of_pos _ (by norm_num))
      have h2 : ((10 ^ digitos_padding.toNat : Nat) : Int) = 10 ^ digitos_padding.toNat := by
        push_cast
        rfl
      omega
    · unfold aplicar_padding
      rw [if_neg (by omega)]
  · intro m digitos_padding draw h
    unfold aplicar_padding
    rw [if_pos h]

theorem claim_C9_aplicar_padding_witness :
    (∃ s : Int, 0 ≤ s ∧ s < 10 ^ (2 : Int).toNat ∧
      aplicar_padding 3 2 47 = .ok (3 * 10 ^ (2 : Int).toNat + s)) ∧
    aplicar_padding (-1) 2 0 = .error .valueError :=
  ⟨claim_C9_aplicar_padding.1 3 2 47 (by decide) (by decide),
    claim_C9_aplicar_padding.2 (-1) 2 0 (by decide)⟩

/-- Claim C6 counterexample: the claim demands that `eliminar_padding v d`
return `v / 10^d` whenever `0 ≤ d` is strictly below the decimal digit
count of `v`; at `v = 0, d = 0` the digit count of `0` is 1 and `0 ≤ 0 < 1`, so
the claim demands `.ok 0`, but `int(log10(0))` raises the domain
`ValueError` instead. -/
theorem claim_C6_counterexample :
    eliminar_padding 0 0 = .error .valueError ∧ eliminar_padding 0 0 ≠ .ok 0 := by
  refine ⟨by decide, by decide⟩

/-- Claim C6 (amended): for `v ≥ 1`, `eliminar_padding v d` returns
`v / 10^d` (never silently truncating to zero) when `0 ≤ d` is strictly
below the decimal digit count of `v`, and fails with a validation error
whenever `d < 0`, `v ≤ 0` (the `log10` domain error) or `d` is not
strictly below the digit count. -/
theorem claim_C6_eliminar_padding :
    (∀ v d : Int, 1 ≤ v → 0 ≤ d → d < cuenta_digitos v →
      eliminar_padding v d = .ok (v / 10 ^ d.toNat) ∧ 1 ≤ v / 10 ^ d.toNat) ∧
    (∀ v d : Int, d < 0 ∨ v ≤ 0 ∨ cuenta_digitos v ≤ d →
      eliminar_padding v d = .error .valueError) := by
  constructor
  · intro v d hv hd hdig
    refine ⟨eliminar_padding_ok v d hv hd hdig, ?_⟩
    have hlogv := cuenta_digitos_eq_log v hv
    have hdlog : d.toNat ≤ Nat.log 10 v.toNat := by omega
    have hvpow : (10 : Nat) ^ d.toNat ≤ v.toNat :=
      le_trans (Nat.pow_le_pow_right (by norm_num) hdlog)
        (Nat.pow_log_le_self 10 (by omega))
    have hvpow' : (10 : Int) ^ d.toNat ≤ v := by
      have := Int.ofNat_le.mpr hvpow
      push_cast at this
      rwa [Int.toNat_of_nonneg (by omega : (0 : Int) ≤ v)] at this
    rw [Int.le_ediv_iff_mul_le (by positivity)]
    omega
  · intro v d h
    by_cases h1 : d < 0
    · unfold eliminar_padding
      rw [if_pos h1]
    · have hd0 : 0 ≤ d := by omega
      by_cases h2 : v ≤ 0
      · unfold eliminar_padding int_log10
        rw [if_neg h1, if_pos h2]
      · have hv1 : 1 ≤ v := by omega
        have hdig : cuenta_digitos v ≤ d := by
          rcases h with h | h | h
          · omega
          · omega
          · exact h
        have hlg : int_log10 v = .ok (cuenta_digitos v - 1) := by
          unfold int_log10
          rw [if_neg (by omega)]
        unfold eliminar_padding
        rw [if_neg h1]
        simp only [hlg]
        rw [if_neg (by omega)]

theorem claim_C6_eliminar_padding_witness :
    (eliminar_padding 345 1 = .ok 34 ∧ (1 : Int) ≤ 34) ∧
    eliminar_padding 45 3 = .error .valueError :=
  ⟨claim_C6_eliminar_padding.1 345 1 (by decide) (by decide) (by decide),
    claim_C6_eliminar_padding.2 45 3 (by decide)⟩

/-- Claim C7: `cifrar_rsa` raises a validation error whenever any of its
integer inputs is negative; for positive `m` and `n` it asserts that the
padded digit count `cuenta_digitos m + digitos_padding` stays strictly
below `cuenta_digitos n` before padding and exponentiation, and when the
assertion passes the padded value is strictly below the modulus. -/
theorem claim_C7_cifrar_rsa :
    (∀ (m n e k : Int) (draw : Nat), m < 0 ∨ n < 0 ∨ e < 0 ∨ k < 0 →
      cifrar_rsa m n e k draw = .error .valueError) ∧
    (∀ (m n e k : Int) (draw : Nat), 1 ≤ m → 1 ≤ n → 0 ≤ e → 0 ≤ k →
      cuenta_digitos n ≤ cuenta_digitos m + k →
      cifrar_rsa m n e k draw = .error .assertionError) ∧
    (∀ (m n e k : Int) (draw : Nat), 1 ≤ m → 1 ≤ n → 0 ≤ e → 0 ≤ k →
      cuenta_digitos m + k < cuenta_digitos n →
      ∃ s : Int, 0 ≤ s ∧ s < 10 ^ k.toNat ∧
        cifrar_rsa m n e k draw = potencia_mod_p (m * 10 ^ k.toNat + s) e n ∧
        m * 10 ^ k.toNat + s < n) := by
  refine ⟨?_, ?_, ?_⟩
  · intro m n e k draw h
    unfold cifrar_rsa
    rw [if_pos h]
  · intro m n e k draw hm hn he hk hdig
    have hlg_m : int_log10 m = .ok (cuenta_digitos m - 1) := by
      unfold int_log10
      rw [if_neg (by omega)]
    have hlg_n : int_log10 n = .ok (cuenta_digitos n - 1) := by
      unfold int_log10
      rw [if_neg (by omega)]
    unfold cifrar_rsa
    rw [if_neg (by omega)]
    simp only [hlg_m, hlg_n]
    rw [if_neg (by omega)]
  · intro m n e k draw hm hn he hk hdig
    obtain ⟨s, h1, h2, h3, h4, _⟩ := cifrar_rsa_ok m n e k draw hm hn he hk hdig
    exact ⟨s, h1, h2, h3, h4⟩

theorem claim_C7_cifrar_rsa_witness :
    cifrar_rsa (-1) 35 5 0 0 = .error .valueError ∧
    cifrar_rsa 116 5 3 10 0 = .error .assertionError ∧
    ∃ s : Int, 0 ≤ s ∧ s < 10 ^ (0 : Int).toNat ∧
      cifrar_rsa 4 35 5 0 0 = potencia_mod_p (4 * 10 ^ (0 : Int).toNat + s) 5 35 ∧
      4 * 10 ^ (0 : Int).toNat + s < 35 :=
  ⟨claim_C7_cifrar_rsa.1 (-1) 35 5 0 0 (by decide),
    claim_C7_cifrar_rsa.2.1 116 5 3 10 0 (by decide) (by decide) (by decide) (by decide)
      (by decide),
    claim_C7_cifrar_rsa.2.2 4 35 5 0 0 (by decide) (by decide) (by decide) (by decide)
      (by decide)⟩

theorem cifrar_rsa_cero (n e k : Int) (draw : Nat) :
    cifrar_rsa 0 n e k draw = .error .valueError := by
  unfold cifrar_rsa
  by_cases h : (0 : Int) < 0 ∨ n < 0 ∨ e < 0 ∨ k < 0
  · rw [if_pos h]
  · rw [if_neg h]
    have hlg : int_log10 0 = .error .valueError := by decide
    simp only [hlg]

/-- Claim C10 (implicit): the message integer `0` (the NUL code point)
passes the non-negativity validation of `cifrar_rsa` but makes its
digit-count assertion evaluate `log10(0)`, which raises the domain
`ValueError` before any ciphertext is produced; consequently a string
containing NUL can never be encrypted by `cifrar_cadena_rsa`. -/
theorem claim_C10_nul :
    (∀ (n e k : Int) (draw : Nat), cifrar_rsa 0 n e k draw = .error .valueError) ∧
    (∀ (s : List Int) (n e k : Int) (draws : List Nat), (0 : Int) ∈ s →
      ∀ out, cifrar_cadena_rsa s n e k draws ≠ .ok out) := by
  constructor
  · exact cifrar_rsa_cero
  · intro s
    induction s with
    | nil =>
      intro n e k draws h0
      cases h0
    | cons c rest ih =>
      intro n e k draws h0 out hok
      unfold cifrar_cadena_rsa at hok
      rcases hc : cifrar_rsa c n e k (draws.headD 0) with err | x
      · have : (Except.error err : Except PyError (List Int)) = .ok out := by
          rw [hc] at hok
          exact hok
        cases this
      · rcases List.mem_cons.mp h0 with h | h
        · subst h
          rw [cifrar_rsa_cero] at hc
          cases hc
        · rw [hc] at hok
          rcases hrest : cifrar_cadena_rsa rest n e k draws.tail with err | xs
          · have : (Except.error err : Except PyError (List Int)) = .ok out := by
              rw [hrest] at hok
              exact hok
            cases this
          · exact ih n e k draws.tail h xs hrest

theorem claim_C10_nul_witness :
    cifrar_cadena_rsa [0] 7 3 0 [] ≠ .ok [] :=
  claim_C10_nul.2 [0] 7 3 0 [] (by decide) []

theorem potencia_mod_p_error (b e n : Int) (err : PyError)
    (h : potencia_mod_p b e n = .error err) : err = .valueError := by
  unfold potencia_mod_p at h
  by_cases h1 : n ≤ 0
  · rw [if_pos h1] at h
    cases h
    rfl
  · rw [if_neg h1] at h
    by_cases h2 : e < 0
    · rw [if_pos h2] at h
      cases h
      rfl
    · rw [if_neg h2] at h
      cases h

theorem int_log10_error (m : Int) (err : PyError) (h : int_log10 m = .error err) :
    err = .valueError := by
  unfold int_log10 at h
  by_cases h1 : m ≤ 0
  · rw [if_pos h1] at h
    cases h
    rfl
  · rw [if_neg h1] at h
    cases h

theorem eliminar_padding_error (m k : Int) (err : PyError)
    (h : eliminar_padding m k = .error err) : err = .valueError := by
  unfold eliminar_padding at h
  by_cases h1 : k < 0
  · rw [if_pos h1] at h
    cases h
    rfl
  · rw [if_neg h1] at h
    rcases hlg : int_log10 m with err' | lg
    · have h' : (Except.error err' : Except PyError Int) = .error err := by
        rw [hlg] at h
        exact h
      cases h'
      exact int_log10_error m err hlg
    · rw [hlg] at h
      have h' : (if k < lg + 1 then (Except.ok (m / 10 ^ k.toNat) : Except PyError Int)
          else .error .valueError) = .error err := h
      by_cases h2 : k < lg + 1
      · rw [if_pos h2] at h'
        cases h'
      · rw [if_neg h2] at h'
        cases h'
        rfl

theorem descifrar_rsa_error (c n d k : Int) (err : PyError)
    (h : descifrar_rsa c n d k = .error err) : err = .valueError := by
  unfold descifrar_rsa at h
  rcases hpot : potencia_mod_p c d n with err' | c2
  · have h' : (Except.error err' : Except PyError Int) = .error err := by
      rw [hpot] at h
      exact h
    cases h'
    exact potencia_mod_p_error c d n err hpot
  · rw [hpot] at h
    exact eliminar_padding_error c2 k err h

theorem pychr_error (v : Int) (err : PyError) (h : pychr v = .error err) :
    err = .valueError := by
  unfold pychr at h
  by_cases h1 : v < 0 ∨ 1114111 < v
  · rw [if_pos h1] at h
    cases h
    rfl
  · rw [if_neg h1] at h
    cases h

theorem descifrar_cadena_rsa_error (clist : List Int) (n d k : Int) (err : PyError)
    (h : descifrar_cadena_rsa clist n d k = .error err) : err = .valueError := by
  induction clist generalizing err with
  | nil =>
    unfold descifrar_cadena_rsa at h
    cases h
  | cons c rest ih =>
    unfold descifrar_cadena_rsa at h
    rcases hd : descifrar_rsa c n d k with err' | m
    · have h' : (Except.error err' : Except PyError (List Int)) = .error err := by
        rw [hd] at h
        exact h
      cases h'
      exact descifrar_rsa_error c n d k err hd
    · rw [hd] at h
      have h2 : (match pychr m with
          | .error err0 => (Except.error err0 : Except PyError (List Int))
          | .ok ch =>
            match descifrar_cadena_rsa rest n d k with
            | .error err0 => .error err0
            | .ok ms => .ok (ch :: ms)) = .error err := h
      rcases hch : pychr m with err' | ch
      · have h' : (Except.error err' : Except PyError (List Int)) = .error err := by
          rw [hch] at h2
          exact h2
        cases h'
        exact pychr_error m err hch
      · rw [hch] at h2
        have h3 : (match descifrar_cadena_rsa rest n d k with
            | .error err0 => (Except.error err0 : Except PyError (List Int))
            | .ok ms => .ok (ch :: ms)) = .error err := h2
        rcases hrest : descifrar_cadena_rsa rest n d k with err' | ms
        · have h' : (Except.error err' : Except PyError (List Int)) = .error err := by
            rw [hrest] at h3
            exact h3
          cases h'
          exact ih err hrest
        · have h' : (Except.ok (ch :: ms) : Except PyError (List Int)) = .error err := by
            rw [hrest] at h3
            exact h3
          cases h'

theorem descifra_contenedor_eq (n d k : Int) (mensaje : Option (List Int)) :
    descifra_contenedor n d k mensaje =
      .ok (mensaje.bind (fun msg => (descifrar_cadena_rsa msg n d k).toOption)) := by
  rcases mensaje with _ | msg
  · rfl
  · show (match descifrar_cadena_rsa msg n d k with
        | .ok s => (Except.ok (some s) : Except PyError (Option (List Int)))
        | .error .valueError => .ok none
        | .error err => .error err) =
      .ok ((descifrar_cadena_rsa msg n d k).toOption)
    rcases hd : descifrar_cadena_rsa msg n d k with err | s
    · have herr := descifrar_cadena_rsa_error msg n d k err hd
      subst herr
      simp [Except.toOption]
    · simp [Except.toOption]

/-- Claim C2 counterexample: with the generated key `(n, e, d) =
(35, 5, 5)` and zero padding digits, the cipher value 9 decrypts fine on
its own while the single cipher value 0 fails; yet `descifrar_cadena_rsa`
on the two-element list aborts the whole message with the error instead
of reporting the failing character distinctly — per-character fault
isolation does not hold in `descifrar_cadena_rsa`. -/
theorem claim_C2_counterexample :
    descifrar_rsa 9 35 5 0 = .ok 4 ∧
    descifrar_rsa 0 35 5 0 = .error .valueError ∧
    descifrar_cadena_rsa [9, 0] 35 5 0 = .error .valueError := by
  refine ⟨by decide, by decide, by decide⟩

/-- Claim C2 (amended): the fault isolation implemented by the code is
per message, not per character: `User.check_inbox` never aborts the
inbox; each container keeps its sender and date, a container whose
message fails to decrypt (or was already the corrupted sentinel) is
rendered as the corrupted-message marker (`none`, printed as
`"MENSAJE CORRUPTO"`), and every other container is decrypted normally. -/
theorem claim_C2_check_inbox (n d k : Int) (inbox : List Contenedor) :
    check_inbox n d k inbox = .ok (inbox.map (fun c => (c.emisor, c.fecha,
      c.mensaje.bind (fun msg => (descifrar_cadena_rsa msg n d k).toOption)))) := by
  induction inbox with
  | nil => rfl
  | cons c rest ih =>
    unfold check_inbox
    rw [descifra_contenedor_eq]
    simp only [ih, List.map_cons]

/-- Claim C3 counterexample: the claim says every arithmetic error kind
during the self-test round trip makes `valid` return `False`; but with
the key `(5, 3, 3)` the round trip raises the digit-count
`AssertionError` (the modulus 5 is far too small for the fixed literal
plus 10 padding digits) and `valid` propagates it instead of returning
`False` — its `try` block catches only `OverflowError`. -/
theorem claim_C3_counterexample : valid 5 3 3 [] = .error .assertionError := by decide

/-- Claim C3 (amended): `valid` returns `True` iff the round-trip
self-test reproduces the fixed literal exactly; a numeric-overflow error
or a round-trip mismatch yields `False`; but every other error kind
(validation errors, assertion errors) propagates out of `valid` instead
of being treated as "key invalid". -/
theorem claim_C3_valid (n e d : Int) (draws : List Nat) :
    (valid n e d draws = .ok true ↔ valid_roundtrip n e d draws = .ok test_message) ∧
    (valid_roundtrip n e d draws = .error .overflowError → valid n e d draws = .ok false) ∧
    (∀ s, valid_roundtrip n e d draws = .ok s → s ≠ test_message →
      valid n e d draws = .ok false) ∧
    (∀ err, err ≠ .overflowError → valid_roundtrip n e d draws = .error err →
      valid n e d draws = .error err) := by
  unfold valid
  rcases hrt : valid_roundtrip n e d draws with err | s
  · cases err <;> simp
    intro err h1 h2
    exact h1 h2.symm
  · simp

theorem claim_C3_valid_witness : valid 5 3 3 [] = .error .assertionError :=
  (claim_C3_valid 5 3 3 []).2.2.2 .assertionError (by decide) (by decide)
